import Mathlib

/-!
# Verification of the capability-token object-storage core

A shallow embedding, over `List Char` strings and segment lists, of:

* `src/src/lib/file-system.ts` — `sanitizePath`, `writeFile`, `deleteItem`,
  `cleanupEmptyParents`;
* `src/src/lib/auth-token.ts` — `generateToken` (prefix normalisation and
  expiry computation) and `validateToken` (presence, expiry, scope match);
* the `PATCH`/`DELETE` route handlers of `src/unnamed/part_001`;
* the Express front end `src/index.js` (registration order of its handlers,
  its `path.join(STORAGE, relPath)` destination, its delete loop).

Strings are modelled as `List Char` (`String.data`); the Node `path.posix`
primitives (`normalize`, `join`, `extname`) are implemented segment-wise,
following Node's documented semantics.  Filesystem state is a flat list of
(path, kind) entries with paths as segment lists *relative to the storage
root*; the root itself is the entry with path `[]`, so removing the storage
root is representable.  Under this relativisation, the source guard
`dir.startsWith(UPLOADS_DIR) && dir !== UPLOADS_DIR` becomes `p ≠ []`.
-/

/-- A path segment: the characters between two `/` separators. -/
abbrev Seg := List Char

/-- The `..` segment. -/
def ddSeg : Seg := ['.', '.']

/-- The `.` segment. -/
def dotSeg : Seg := ['.']

/-- Split a character list on `/`, keeping empty segments
(`"a//b" ↦ ["a", "", "b"]`, `"" ↦ [""]`, `"/" ↦ ["", ""]`). -/
def splitSlash : List Char → List Seg
  | [] => [[]]
  | '/' :: r => [] :: splitSlash r
  | c :: r =>
    match splitSlash r with
    | [] => [[c]]
    | s :: ss => (c :: s) :: ss

/-- Join segments with `/` (inverse of `splitSlash` on slash-free segments). -/
def joinSlash : List Seg → List Char
  | [] => []
  | [s] => s
  | s :: rest => s ++ '/' :: joinSlash rest

/-- A segment kept by normalisation: non-empty and not `.`. -/
def goodSeg (s : Seg) : Bool := !(s == [] || s == dotSeg)

/-- Accumulator loop of Node's `path.posix.normalize` segment processing
(`normalizeString`): drop empty and `.` segments, resolve `..` against the
accumulator; a `..` that cannot be resolved is kept for relative paths and
dropped for absolute ones.  The accumulator is in reverse order.
`normDD` is the `..` step: pop a normal segment, keep `..` after `..`. -/
def normDD (isAbs : Bool) (acc : List Seg) : List Seg :=
  match acc with
  | [] => if isAbs then [] else [ddSeg]
  | t :: acc2 => if t = ddSeg then ddSeg :: t :: acc2 else acc2

def normAcc (isAbs : Bool) (acc : List Seg) : List Seg → List Seg
  | [] => acc
  | s :: rest =>
    if s = [] ∨ s = dotSeg then normAcc isAbs acc rest
    else if s = ddSeg then normAcc isAbs (normDD isAbs acc) rest
    else normAcc isAbs (s :: acc) rest

/-- Normalised segments of a path, in order. -/
def normSegs (isAbs : Bool) (l : List Seg) : List Seg := (normAcc isAbs [] l).reverse

/-- Node `path.posix.normalize` on character lists: empty input gives `.`;
otherwise the segments are normalised, a leading `/` (absolute) and a trailing
`/` are preserved, and an empty relative result becomes `.` (or `./` with a
trailing separator). -/
def normChars (l : List Char) : List Char :=
  if l = [] then dotSeg
  else
    let isAbs := l.head? == some '/'
    let trail := l.getLast? == some '/'
    let body := joinSlash (normSegs isAbs (splitSlash l))
    if isAbs then
      '/' :: (if body = [] then [] else if trail then body ++ ['/'] else body)
    else
      if body = [] then (if trail then ['.', '/'] else dotSeg)
      else if trail then body ++ ['/'] else body

/-- The regex replace `^(\.\.(\/|\\|$))+` of `sanitizePath`
(src/src/lib/file-system.ts line 18): repeatedly strip a leading `../` or
`..\`, and a bare trailing `..`. -/
def stripDD : List Char → List Char
  | '.' :: '.' :: '/' :: r => stripDD r
  | '.' :: '.' :: '\\' :: r => stripDD r
  | ['.', '.'] => []
  | l => l

/-- Node `path.posix.join` on two character-list arguments: empty parts are
skipped, the rest are joined with `/` and normalised; joining nothing gives
`.`. -/
def posixJoin2 (a b : List Char) : List Char :=
  if a = [] ∧ b = [] then dotSeg
  else if a = [] then normChars b
  else if b = [] then normChars a
  else normChars (a ++ '/' :: b)

/-- `sanitizePath` of src/src/lib/file-system.ts:
`path.join(UPLOADS_DIR, path.normalize(relativePath).replace(/^(\.\.(\/|\\|$))+/, ''))`,
with the storage root passed explicitly. -/
def sanitizeChars (rootC raw : List Char) : List Char :=
  posixJoin2 rootC (stripDD (normChars raw))

/-- `sanitizePath` at the `String` level. -/
def sanitizePath (root raw : String) : String :=
  ⟨sanitizeChars root.data raw.data⟩

/-- `q` lies in the subtree of the (normalised, absolute) root path: it is the
root itself or extends it past a `/`. -/
def insideRoot (rootC q : List Char) : Bool :=
  q == rootC || (rootC ++ ['/']).isPrefixOf q

/-- Destination computed by the Express `app.put` handler of src/index.js
line 26: `path.join(STORAGE, relPath)` — no sanitisation step. -/
def expressPutDest (storageC relPath : List Char) : List Char :=
  posixJoin2 storageC relPath

/-! ## ScopeMatcher and TokenStore (src/src/lib/auth-token.ts) -/

/-- JS `s.endsWith('/')`. -/
def strEndsSlash (s : List Char) : Bool := s.getLast? == some '/'

/-- JS `s.replace(/\\/g, '/')`. -/
def mapBackslash (l : List Char) : List Char :=
  l.map (fun c => if c = '\\' then '/' else c)

/-- Request-path normalisation inside `validateToken`
(src/src/lib/auth-token.ts lines 131–134): replace backslashes, `posix.normalize`,
and map a resulting `.` to the empty string. -/
def normalizeReq (raw : List Char) : List Char :=
  let n := normChars (mapBackslash raw)
  if n = dotSeg then [] else n

/-- The scope-match decision of `validateToken`
(src/src/lib/auth-token.ts lines 136–153), applied to the already-normalised
request path: a prefix ending in `/` or equal to `""` is a directory grant
(`""` allows everything, otherwise the path must start with the prefix or be
the directory itself without the trailing slash); any other prefix is a
single-file grant demanding exact equality. -/
def matchesScope (pfx reqPath : List Char) : Bool :=
  if strEndsSlash pfx = true ∨ pfx = [] then
    if pfx = [] then true
    else pfx.isPrefixOf reqPath || reqPath ++ ['/'] == pfx
  else reqPath == pfx

/-- A stored token record (table row `token, pathPrefix, expiry`; the
`pathPrefix` column is called `pathPfx` here). -/
structure TokenRec where
  token : List Char
  pathPfx : List Char
  expiry : Nat
deriving DecidableEq, Repr

/-- `Number.MAX_SAFE_INTEGER`, the "never expires" sentinel. -/
def maxSafeInteger : Nat := 2 ^ 53 - 1

/-- `DEFAULT_EXPIRY_MS = 24 * 60 * 60 * 1000`. -/
def defaultExpiryMs : Nat := 24 * 60 * 60 * 1000

/-- `sqliteDb.get(TOKENS_TABLE_NAME, { token })[0]`. -/
def storeFind (store : List TokenRec) (tok : List Char) : Option TokenRec :=
  store.find? (fun r => r.token == tok)

/-- `sqliteDb.delete(TOKENS_TABLE_NAME, { token })`. -/
def storeDelete (store : List TokenRec) (tok : List Char) : List TokenRec :=
  store.filter (fun r => !(r.token == tok))

/-- The expiry test of `validateToken` line 124:
`expiry !== Number.MAX_SAFE_INTEGER && Date.now() > expiry`. -/
def expiredCheck (expiry now : Nat) : Bool :=
  decide (expiry ≠ maxSafeInteger) && decide (now > expiry)

/-- `validateToken` (src/src/lib/auth-token.ts lines 112–157) as a pure
function of the store and the clock; returns the validation result and the
store after any lazy eviction. -/
def validateToken (store : List TokenRec) (tok : List Char) (now : Nat)
    (requestedPath : List Char) : Option TokenRec × List TokenRec :=
  match storeFind store tok with
  | none => (none, store)
  | some td =>
    if expiredCheck td.expiry now then (none, storeDelete store tok)
    else
      let np := normalizeReq requestedPath
      if matchesScope td.pathPfx np then (some td, store) else (none, store)

/-- The expiry computed by `generateToken` (src/src/lib/auth-token.ts lines
95–103): `0` means never (the sentinel), a present duration is added to the
clock, an absent one falls back to 24 hours. -/
def calculatedExpiry (expiresInMsParam : Option Nat) (now : Nat) : Nat :=
  match expiresInMsParam with
  | some ms => if ms = 0 then maxSafeInteger else now + ms
  | none => now + defaultExpiryMs

/-- JS `String.prototype.trim`. -/
def trimChars (l : List Char) : List Char :=
  ((l.dropWhile Char.isWhitespace).reverse.dropWhile Char.isWhitespace).reverse

/-- Basename used by Node `path.posix.extname`: the last segment, ignoring
trailing slashes. -/
def basenameChars (l : List Char) : List Char :=
  ((l.reverse.dropWhile (fun c => c = '/')).takeWhile (fun c => !(c = '/'))).reverse

/-- Node `path.posix.extname`: empty unless the basename has a dot at a
positive index; the basename `..` has no extension; otherwise everything from
the last dot on. -/
def extnameChars (l : List Char) : List Char :=
  let b := basenameChars l
  if !(b.contains '.') then []
  else
    let tailRev := b.reverse.takeWhile (fun c => !(c = '.'))
    if b.length - tailRev.length - 1 = 0 then []
    else if b = ddSeg then []
    else '.' :: tailRev.reverse

/-- The prefix normalisation of `generateToken` (src/src/lib/auth-token.ts
lines 83–92): trim, backslashes to `/`, strip one leading `/`, `posix.normalize`,
map `.`/`/` to the empty (root) prefix, and append a `/` to a non-empty,
extension-less, not-slash-terminated prefix (the directory heuristic). -/
def processPfx (raw : List Char) : List Char :=
  let t1 := mapBackslash (trimChars raw)
  let t2 := if t1.head? = some '/' then t1.tail else t1
  let n := normChars t2
  if n = dotSeg ∨ n = ['/'] then []
  else if ¬(n = []) ∧ extnameChars n = [] ∧ ¬(strEndsSlash n = true) then n ++ ['/']
  else n

/-! ## StorageEngine model

Filesystem state is a flat list of entries `(path, kind)` with paths relative
to the storage root; the root is the entry `([], dir)`. -/

/-- Kind of a filesystem node. -/
inductive FKind
  | file
  | dir
deriving DecidableEq, Repr

/-- A filesystem path relative to the storage root. -/
abbrev FPath := List Seg

/-- A filesystem: the list of existing entries. -/
abbrev Fsys := List (FPath × FKind)

/-- `fs.stat`: the kind of the node at `p`, if it exists. -/
def lookupKind (fs : Fsys) (p : FPath) : Option FKind :=
  (fs.find? (fun e => e.1 == p)).map (fun e => e.2)

/-- `fs.readdir(p)`: the immediate children of `p`. -/
def childrenOf (fs : Fsys) (p : FPath) : Fsys :=
  fs.filter (fun e => e.1.length == p.length + 1 && p.isPrefixOf e.1)

/-- Remove the single entry at `p` (`fs.unlink` / `fs.rmdir`). -/
def removeEntry (fs : Fsys) (p : FPath) : Fsys :=
  fs.filter (fun e => !(e.1 == p))

/-- Remove `p` and everything below it (`fs.rm(p, { recursive: true })`). -/
def removeTree (fs : Fsys) (p : FPath) : Fsys :=
  fs.filter (fun e => !(p.isPrefixOf e.1))

/-- Create or overwrite the file entry at `p` (`fs.writeFile`). -/
def setFile (fs : Fsys) (p : FPath) : Fsys :=
  (p, FKind.file) :: removeEntry fs p

/-- Segments, relative to the storage root, of the path `sanitizePath` maps a
raw input to.  By `stripDD_noDD` below the stripped path has no `..` segment,
so `path.join(UPLOADS_DIR, stripped)` appends exactly these segments to the
root (a trailing slash adds no segment; the filesystem treats `a/b/` and
`a/b` alike). -/
def sanitizeRelSegs (raw : List Char) : FPath :=
  (splitSlash (stripDD (normChars raw))).filter goodSeg

/-- Recursion worker for `cleanupEmptyParents`, on the reversed path so that
walking to the parent is structural. -/
def cleanupRev (fs : Fsys) : FPath → Fsys
  | [] => fs
  | s :: rest =>
    let p := (s :: rest).reverse
    match lookupKind fs p with
    | some FKind.dir =>
      if childrenOf fs p = [] then cleanupRev (removeEntry fs p) rest
      else fs
    | _ => fs

/-- `cleanupEmptyParents` of src/src/lib/file-system.ts (lines 112–130): stop
at the storage root or outside it (`p = []` under relativisation); a missing
directory (ENOENT) or a non-directory (ENOTDIR) stops silently; an empty
directory is removed and its parent visited; a non-empty one stops. -/
def cleanupEmptyParents (fs : Fsys) (p : FPath) : Fsys :=
  cleanupRev fs p.reverse

/-- `deleteItem` of src/src/lib/file-system.ts (lines 94–110) applied to the
already-sanitised target: missing target is ENOENT, swallowed; a directory is
removed recursively, a file unlinked; then the parents are cleaned up. -/
def deleteItemFs (fs : Fsys) (p : FPath) : Fsys :=
  match lookupKind fs p with
  | none => fs
  | some FKind.dir => cleanupEmptyParents (removeTree fs p) p.dropLast
  | some FKind.file => cleanupEmptyParents (removeEntry fs p) p.dropLast

/-- `getFileStats` of src/src/lib/file-system.ts: stat of the sanitised path
(`null` for ENOENT). -/
def getFileStatsFs (fs : Fsys) (relativePath : List Char) : Option FKind :=
  lookupKind fs (sanitizeRelSegs relativePath)

/-- Outcome of the `DELETE` route handler. -/
inductive DelResult
  | notFound
  | rootForbidden
  | okDel
deriving DecidableEq, Repr

/-- The `DELETE` handler of src/unnamed/part_001 (lines 102–125), after
authorisation: 404 when the stat finds nothing, 403 for the literal root path
`'.'`, otherwise `deleteItem`. -/
def deleteRoute (fs : Fsys) (relativePath : List Char) : DelResult × Fsys :=
  match getFileStatsFs fs relativePath with
  | none => (DelResult.notFound, fs)
  | some _ =>
    if relativePath = dotSeg then (DelResult.rootForbidden, fs)
    else (DelResult.okDel, deleteItemFs fs (sanitizeRelSegs relativePath))

/-- Outcome of the `PATCH` (write) route handler. -/
inductive WriteResult
  | isDirectoryErr
  | invalidTargetErr
  | okWrite
  | ioErr
deriving DecidableEq, Repr

/-- Recursion worker for `mkdirAll`, on the reversed path. -/
def mkdirRev (fs : Fsys) : FPath → Option Fsys
  | [] => some fs
  | s :: rest =>
    match mkdirRev fs rest with
    | none => none
    | some fs1 =>
      let p := (s :: rest).reverse
      match lookupKind fs1 p with
      | some FKind.dir => some fs1
      | some FKind.file => none
      | none => some ((p, FKind.dir) :: fs1)

/-- `fs.mkdir(p, { recursive: true })`: create every missing component of `p`
as a directory; fails (ENOTDIR/EEXIST) when a component already exists as a
file. -/
def mkdirAll (fs : Fsys) (p : FPath) : Option Fsys :=
  mkdirRev fs p.reverse

/-- `writeFile` of src/src/lib/file-system.ts (lines 60–65) on the sanitised
target: create the parent directories, then write; `none` models the raised
I/O error (ENOTDIR parent, or EISDIR when the target is a directory). -/
def writeFileFs (fs : Fsys) (p : FPath) : Option Fsys :=
  match mkdirAll fs p.dropLast with
  | none => none
  | some fs1 =>
    if lookupKind fs1 p = some FKind.dir then none
    else some (setFile fs1 p)

/-- The `PATCH` handler of src/unnamed/part_001 (lines 68–100), after
authorisation: first the existing-directory check, then the `'.'` / trailing
slash check, then `writeFile`. -/
def writeRoute (fs : Fsys) (relativePath : List Char) : WriteResult × Fsys :=
  if getFileStatsFs fs relativePath = some FKind.dir then (WriteResult.isDirectoryErr, fs)
  else if relativePath = dotSeg ∨ strEndsSlash relativePath = true then
    (WriteResult.invalidTargetErr, fs)
  else
    match writeFileFs fs (sanitizeRelSegs relativePath) with
    | none => (WriteResult.ioErr, fs)
    | some fs1 => (WriteResult.okWrite, fs1)

/-! ## The Express front end (src/index.js) -/

/-- HTTP method of a request to the Express app. -/
inductive XMethod
  | putM
  | deleteM
  | getM
deriving DecidableEq, Repr

/-- Response category of the Express app. -/
inductive XResult
  | okPut
  | okDelete
  | notFoundX
  | forbiddenX
  | defaultOk
  | errX
deriving DecidableEq, Repr

/-- Root-relative target of `path.join(STORAGE, relPath)` in src/index.js.
The handlers apply no sanitisation, so a normalised path that retains a `..`
segment climbs out of the storage subtree; such a target has no root-relative
representation and is returned as `none` (see `expressPutDest` for the
string-level destination). -/
def expressJoinRel (relPath : List Char) : Option FPath :=
  let s := normSegs false (splitSlash relPath)
  if ddSeg ∈ s then none else some s

/-- The `app.put` handler (src/index.js lines 24–39): make the parent
directories, stream the body to the destination.  No token is consulted. -/
def expressPut (fs : Fsys) (relPath : List Char) : XResult × Fsys :=
  match expressJoinRel relPath with
  | none => (XResult.errX, fs)
  | some target =>
    match mkdirAll fs target.dropLast with
    | none => (XResult.errX, fs)
    | some fs1 =>
      if lookupKind fs1 target = some FKind.dir then (XResult.errX, fs1)
      else (XResult.okPut, setFile fs1 target)

/-- The `while` loop of the `app.delete` handler (src/index.js lines 48–57),
on the reversed path: remove empty directories walking upward;
`dir.startsWith(stop)` is also true of the storage root itself, so the loop
can remove the root, after which it stops. -/
def indexLoopRev (fs : Fsys) : FPath → Fsys
  | [] =>
    if lookupKind fs [] = some FKind.dir ∧ childrenOf fs [] = [] then removeEntry fs []
    else fs
  | s :: rest =>
    let p := (s :: rest).reverse
    if lookupKind fs p = some FKind.dir ∧ childrenOf fs p = [] then
      indexLoopRev (removeEntry fs p) rest
    else fs

/-- The empty-parent loop of the `app.delete` handler of src/index.js. -/
def indexCleanupLoop (fs : Fsys) (p : FPath) : Fsys :=
  indexLoopRev fs p.reverse

/-- The `app.delete` handler (src/index.js lines 41–60): 404 when the target
does not exist, `unlinkSync` (EISDIR on a directory is an uncaught 500), then
the empty-parent loop.  No token is consulted. -/
def expressDelete (fs : Fsys) (relPath : List Char) : XResult × Fsys :=
  match expressJoinRel relPath with
  | none => (XResult.errX, fs)
  | some target =>
    match lookupKind fs target with
    | none => (XResult.notFoundX, fs)
    | some FKind.dir => (XResult.errX, fs)
    | some FKind.file =>
      (XResult.okDelete, indexCleanupLoop (removeEntry fs target) target.dropLast)

/-- The Express app of src/index.js.  Routes are dispatched in registration
order: `app.put` (line 24), `app.delete` (line 41), the token middleware
(line 62), the default responder (line 84).  A PUT or DELETE request is
therefore consumed by its handler — which never consults `tokenOk` — before
the middleware runs; only remaining methods reach the token check. -/
def expressApp (tokenOk : List Char → List Char → Bool) (fs : Fsys) (m : XMethod)
    (tok relPath : List Char) : XResult × Fsys :=
  match m with
  | XMethod.putM => expressPut fs relPath
  | XMethod.deleteM => expressDelete fs relPath
  | XMethod.getM =>
    if tokenOk tok relPath then (XResult.defaultOk, fs) else (XResult.forbiddenX, fs)

/-- A storage root in normal form: a non-empty list of segments, each
non-empty, not `.`, not `..`, slash-free (e.g. `UPLOADS_DIR = cwd/uploads`). -/
def goodRootSegs (R : List Seg) : Prop :=
  R ≠ [] ∧ ∀ s ∈ R, s ≠ [] ∧ s ≠ dotSeg ∧ s ≠ ddSeg ∧ '/' ∉ s

/-- The absolute root path rendered from its segments. -/
def rootChars (R : List Seg) : List Char := '/' :: joinSlash R

/-! ## Lemmas: splitting and joining on `/` -/

lemma splitSlash_nil : splitSlash [] = [[]] := rfl

lemma splitSlash_slash (r : List Char) : splitSlash ('/' :: r) = [] :: splitSlash r := rfl

lemma splitSlash_cons_ne (c : Char) (r : List Char) (hc : c ≠ '/') (s : Seg) (ss : List Seg)
    (h : splitSlash r = s :: ss) : splitSlash (c :: r) = (c :: s) :: ss := by
  conv_lhs => rw [splitSlash.eq_def]
  split
  · rename_i heq; exact absurd heq (by simp)
  · rename_i heq
    rw [List.cons.injEq] at heq
    exact absurd heq.1 hc
  · rename_i c2 r2 hne heq
    rw [List.cons.injEq] at heq
    obtain ⟨h1, h2⟩ := heq
    subst h1; subst h2
    rw [h]

lemma splitSlash_ne_nil (l : List Char) : splitSlash l ≠ [] := by
  induction l with
  | nil => simp [splitSlash_nil]
  | cons c r ih =>
    by_cases hc : c = '/'
    · subst hc; simp [splitSlash_slash]
    · rcases h : splitSlash r with _ | ⟨s, ss⟩
      · exact absurd h ih
      · rw [splitSlash_cons_ne c r hc s ss h]; simp

lemma noSlash_splitSlash (l : List Char) : ∀ s ∈ splitSlash l, '/' ∉ s := by
  induction l with
  | nil => simp [splitSlash_nil]
  | cons c r ih =>
    by_cases hc : c = '/'
    · subst hc; rw [splitSlash_slash]
      intro s hs
      rcases List.mem_cons.mp hs with h | h
      · simp [h]
      · exact ih s h
    · rcases h : splitSlash r with _ | ⟨s0, ss⟩
      · exact absurd h (splitSlash_ne_nil r)
      · rw [splitSlash_cons_ne c r hc s0 ss h]
        intro s hs
        rcases List.mem_cons.mp hs with h2 | h2
        · subst h2
          intro hmem
          rcases List.mem_cons.mp hmem with h3 | h3
          · exact hc h3.symm
          · exact ih s0 (by rw [h]; exact List.mem_cons_self _ _) h3
        · exact ih s (by rw [h]; exact List.mem_cons_of_mem _ h2)

lemma splitSlash_append (a b : List Char) :
    splitSlash (a ++ '/' :: b) = splitSlash a ++ splitSlash b := by
  induction a with
  | nil => simp [splitSlash_slash, splitSlash_nil]
  | cons c r ih =>
    by_cases hc : c = '/'
    · subst hc
      simp only [List.cons_append, splitSlash_slash, ih, List.cons_append]
    · rcases h : splitSlash r with _ | ⟨s0, ss⟩
      · exact absurd h (splitSlash_ne_nil r)
      · have h2 : splitSlash (r ++ '/' :: b) = (s0 :: ss) ++ splitSlash b := by
          rw [ih, h]
        rcases h3 : splitSlash b with _ | ⟨t0, ts⟩
        · exact absurd h3 (splitSlash_ne_nil b)
        · rw [List.cons_append,
            splitSlash_cons_ne c (r ++ '/' :: b) hc s0 (ss ++ splitSlash b) (by rw [h2]; rfl),
            splitSlash_cons_ne c r hc s0 ss h, h3]
          simp

lemma splitSlash_noslash (s : List Char) (hs : '/' ∉ s) : splitSlash s = [s] := by
  induction s with
  | nil => rfl
  | cons c r ih =>
    have hc : c ≠ '/' := fun h => hs (by rw [h]; exact List.mem_cons_self _ _)
    have hr : '/' ∉ r := fun h => hs (List.mem_cons_of_mem _ h)
    rw [splitSlash_cons_ne c r hc r [] (ih hr)]

lemma joinSlash_cons (s : Seg) (rest : List Seg) (h : rest ≠ []) :
    joinSlash (s :: rest) = s ++ '/' :: joinSlash rest := by
  rcases rest with _ | ⟨t, ts⟩
  · exact absurd rfl h
  · rfl

lemma splitSlash_joinSlash (S : List Seg) (hne : S ≠ []) (hs : ∀ s ∈ S, '/' ∉ s) :
    splitSlash (joinSlash S) = S := by
  induction S with
  | nil => exact absurd rfl hne
  | cons s rest ih =>
    rcases rest with _ | ⟨t, ts⟩
    · exact splitSlash_noslash s (hs s (List.mem_cons_self _ _))
    · rw [joinSlash_cons s (t :: ts) (by simp), splitSlash_append,
        splitSlash_noslash s (hs s (List.mem_cons_self _ _)),
        ih (by simp) (fun x hx => hs x (List.mem_cons_of_mem _ hx))]
      rfl

lemma splitSlash_concat_slash (l : List Char) :
    splitSlash (l ++ ['/']) = splitSlash l ++ [[]] := by
  have := splitSlash_append l []
  simpa [splitSlash_nil] using this

/-! ## Lemmas: the normalisation accumulator -/

lemma normDD_mem (isAbs : Bool) (acc : List Seg) :
    ∀ s ∈ normDD isAbs acc, s ∈ acc ∨ s = ddSeg := by
  intro s hs
  rcases acc with _ | ⟨t, acc2⟩
  · rw [normDD] at hs
    split at hs
    · exact absurd hs (List.not_mem_nil s)
    · rcases List.mem_cons.mp hs with h | h
      · exact Or.inr h
      · exact absurd h (List.not_mem_nil s)
  · rw [normDD] at hs
    split at hs
    · rcases List.mem_cons.mp hs with h | h
      · exact Or.inr h
      · exact Or.inl h
    · exact Or.inl (List.mem_cons_of_mem _ hs)

lemma normAcc_mem (isAbs : Bool) (inp : List Seg) :
    ∀ acc, ∀ s ∈ normAcc isAbs acc inp, s ∈ acc ∨ s ∈ inp ∨ s = ddSeg := by
  induction inp with
  | nil => intro acc s hs; exact Or.inl hs
  | cons x rest ih =>
    intro acc s hs
    rw [normAcc] at hs
    split at hs
    · rcases ih acc s hs with h | h | h
      · exact Or.inl h
      · exact Or.inr (Or.inl (List.mem_cons_of_mem _ h))
      · exact Or.inr (Or.inr h)
    · split at hs
      · rcases ih _ s hs with h | h | h
        · rcases normDD_mem isAbs acc s h with h2 | h2
          · exact Or.inl h2
          · exact Or.inr (Or.inr h2)
        · exact Or.inr (Or.inl (List.mem_cons_of_mem _ h))
        · exact Or.inr (Or.inr h)
      · rcases ih _ s hs with h | h | h
        · rcases List.mem_cons.mp h with h2 | h2
          · exact Or.inr (Or.inl (by rw [h2]; exact List.mem_cons_self _ _))
          · exact Or.inl h2
        · exact Or.inr (Or.inl (List.mem_cons_of_mem _ h))
        · exact Or.inr (Or.inr h)

lemma normDD_good (isAbs : Bool) (acc : List Seg)
    (hacc : ∀ s ∈ acc, s ≠ [] ∧ s ≠ dotSeg) :
    ∀ s ∈ normDD isAbs acc, s ≠ [] ∧ s ≠ dotSeg := by
  intro s hs
  rcases normDD_mem isAbs acc s hs with h | h
  · exact hacc s h
  · subst h; constructor <;> decide

lemma normAcc_good (isAbs : Bool) (inp : List Seg) :
    ∀ acc, (∀ s ∈ acc, s ≠ [] ∧ s ≠ dotSeg) →
      ∀ s ∈ normAcc isAbs acc inp, s ≠ [] ∧ s ≠ dotSeg := by
  induction inp with
  | nil => intro acc hacc s hs; exact hacc s hs
  | cons x rest ih =>
    intro acc hacc s hs
    rw [normAcc] at hs
    split at hs
    · exact ih acc hacc s hs
    · split at hs
      · exact ih _ (normDD_good isAbs acc hacc) s hs
      · rename_i hskip hdd
        refine ih _ ?_ s hs
        intro u hu
        rcases List.mem_cons.mp hu with h2 | h2
        · subst h2
          push_neg at hskip
          exact ⟨hskip.1, hskip.2⟩
        · exact hacc u h2

lemma normAcc_true_noDD (inp : List Seg) :
    ∀ acc, ddSeg ∉ acc → ddSeg ∉ normAcc true acc inp := by
  induction inp with
  | nil => intro acc hacc; exact hacc
  | cons x rest ih =>
    intro acc hacc
    rw [normAcc]
    split
    · exact ih acc hacc
    · split
      · refine ih _ ?_
        intro hmem
        rcases normDD_mem true acc ddSeg hmem with h | h
        · exact hacc h
        · rcases acc with _ | ⟨t, acc2⟩
          · rw [normDD] at hmem; simp at hmem
          · rw [normDD] at hmem
            split at hmem
            · rename_i ht; exact hacc (by rw [ht]; exact List.mem_cons_self _ _)
            · exact hacc (List.mem_cons_of_mem _ hmem)
      · rename_i hskip hdd
        refine ih _ ?_
        intro hmem
        rcases List.mem_cons.mp hmem with h2 | h2
        · exact hdd h2.symm
        · exact hacc h2

lemma normAcc_false_shape (inp : List Seg) :
    ∀ acc G k, acc = G ++ List.replicate k ddSeg → ddSeg ∉ G →
      ∃ G2 k2, normAcc false acc inp = G2 ++ List.replicate k2 ddSeg ∧ ddSeg ∉ G2 := by
  induction inp with
  | nil =>
    intro acc G k hacc hG
    exact ⟨G, k, by rw [normAcc, hacc], hG⟩
  | cons x rest ih =>
    intro acc G k hacc hG
    rw [normAcc]
    split
    · exact ih acc G k hacc hG
    · split
      · rename_i hskip hdd
        rcases G with _ | ⟨g, G'⟩
        · -- acc is a pure run of ddSeg
          rcases k with _ | k'
        -- k = 0 : acc = []
          · refine ih (normDD false acc) [] 1 ?_ (by simp)
            rw [hacc]; simp [normDD]
          · refine ih (normDD false acc) [] (k' + 2) ?_ (by simp)
            rw [hacc]
            simp [normDD, List.replicate_succ]
        · -- head of acc is a non-dd segment: pop it
          refine ih (normDD false acc) G' k ?_ (fun hm => hG (List.mem_cons_of_mem _ hm))
          have hg : g ≠ ddSeg := fun h => hG (by rw [h]; exact List.mem_cons_self _ _)
          rw [hacc]
          simp only [List.cons_append, normDD, if_neg hg]
      · rename_i hskip hdd
        refine ih (x :: acc) (x :: G) k ?_ ?_
        · rw [hacc]; rfl
        · intro hm
          rcases List.mem_cons.mp hm with h2 | h2
          · exact hdd h2.symm
          · exact hG h2

lemma normAcc_noDD_filter (isAbs : Bool) (inp : List Seg) :
    ∀ acc, ddSeg ∉ inp → normAcc isAbs acc inp = (inp.filter goodSeg).reverse ++ acc := by
  induction inp with
  | nil => intro acc _; rw [normAcc]; simp
  | cons x rest ih =>
    intro acc hdd
    have hx : x ≠ ddSeg := fun h => hdd (by rw [h]; exact List.mem_cons_self _ _)
    have hrest : ddSeg ∉ rest := fun h => hdd (List.mem_cons_of_mem _ h)
    rw [normAcc]
    split
    · rename_i hskip
      have hg : goodSeg x = false := by
        rcases hskip with h | h <;> simp [goodSeg, h]
      simp only [List.filter_cons, hg, Bool.false_eq_true, if_false]
      exact ih acc hrest
    · rename_i hskip
      have hg : goodSeg x = true := by
        push_neg at hskip
        simp [goodSeg, hskip.1, hskip.2]
      simp only [List.filter_cons, hg, if_true]
      rw [ih (x :: acc) hrest]
      simp

/-! ## Lemmas: the `..`-stripping regex -/

lemma splitSlash_cons_structure (x : List Char) :
    ∀ s L, splitSlash x = s :: L →
      (x = s ∧ L = []) ∨ ∃ y, x = s ++ '/' :: y ∧ splitSlash y = L := by
  induction x with
  | nil =>
    intro s L h
    rw [splitSlash_nil] at h
    injection h with h1 h2
    exact Or.inl ⟨h1, h2.symm⟩
  | cons c r ih =>
    intro s L h
    by_cases hc : c = '/'
    · subst hc
      rw [splitSlash_slash] at h
      injection h with h1 h2
      exact Or.inr ⟨r, by rw [← h1]; rfl, h2⟩
    · rcases h0 : splitSlash r with _ | ⟨s0, ss⟩
      · exact absurd h0 (splitSlash_ne_nil r)
      · rw [splitSlash_cons_ne c r hc s0 ss h0] at h
        injection h with h1 h2
        rcases ih s0 ss h0 with ⟨h3, h4⟩ | ⟨y, h3, h4⟩
        · refine Or.inl ⟨?_, by rw [← h2, h4]⟩
          rw [← h1, h3]
        · refine Or.inr ⟨y, ?_, by rw [← h2]; exact h4⟩
          rw [← h1, h3]
          rfl

lemma stripDD_noDD (x : List Char) :
    ∀ k R, splitSlash x = List.replicate k ddSeg ++ R → ddSeg ∉ R →
      ddSeg ∉ splitSlash (stripDD x) := by
  induction x using stripDD.induct with
  | case1 r ih =>
    intro k R hsplit hR
    have hx : splitSlash ('.' :: '.' :: '/' :: r) = ddSeg :: splitSlash r := by
      rw [show ('.' :: '.' :: '/' :: r) = ddSeg ++ '/' :: r from rfl, splitSlash_append,
        splitSlash_noslash ddSeg (by decide)]
      rfl
    rw [stripDD]
    rcases k with _ | k'
    · rw [hx, List.replicate_zero, List.nil_append] at hsplit
      rw [← hsplit] at hR
      exact absurd (List.mem_cons_self _ _) hR
    · rw [hx, List.replicate_succ, List.cons_append] at hsplit
      injection hsplit with h1 h2
      exact ih k' R h2 hR
  | case2 r ih =>
    intro k R hsplit hR
    rcases h0 : splitSlash r with _ | ⟨s0, ss⟩
    · exact absurd h0 (splitSlash_ne_nil r)
    · have e1 : splitSlash ('\\' :: r) = ('\\' :: s0) :: ss :=
        splitSlash_cons_ne '\\' r (by decide) s0 ss h0
      have e2 : splitSlash ('.' :: '\\' :: r) = ('.' :: '\\' :: s0) :: ss :=
        splitSlash_cons_ne '.' ('\\' :: r) (by decide) _ _ e1
      have hx : splitSlash ('.' :: '.' :: '\\' :: r) = ('.' :: '.' :: '\\' :: s0) :: ss :=
        splitSlash_cons_ne '.' ('.' :: '\\' :: r) (by decide) _ _ e2
      rw [hx] at hsplit
      have hk : k = 0 := by
        rcases k with _ | k'
        · rfl
        · rw [List.replicate_succ, List.cons_append] at hsplit
          injection hsplit with h1 h2
          exact absurd h1 (by simp [ddSeg])
      subst hk
      rw [List.replicate_zero, List.nil_append] at hsplit
      have hss : ddSeg ∉ ss := fun hm => hR (hsplit ▸ List.mem_cons_of_mem _ hm)
      rw [stripDD]
      by_cases hs0 : s0 = ddSeg
      · exact ih 1 ss (by rw [h0, hs0]; rfl) hss
      · refine ih 0 (s0 :: ss) (by rw [h0, List.replicate_zero, List.nil_append]) ?_
        intro hm
        rcases List.mem_cons.mp hm with h3 | h3
        · exact hs0 h3.symm
        · exact hss h3
  | case3 =>
    intro k R hsplit hR
    rw [show stripDD ['.', '.'] = [] from rfl, splitSlash_nil]
    intro hm
    rcases List.mem_cons.mp hm with h3 | h3
    · exact absurd h3 (by decide)
    · exact absurd h3 (List.not_mem_nil _)
  | case4 l h1 h2 h3 =>
    intro k R hsplit hR
    have hstrip : stripDD l = l := by
      rw [stripDD.eq_def]
      split
      · rename_i r2; exact absurd rfl (h1 r2)
      · rename_i r2; exact absurd rfl (h2 r2)
      · exact absurd rfl h3
      · rfl
    rw [hstrip, hsplit]
    rcases k with _ | k'
    · rw [List.replicate_zero, List.nil_append]
      exact hR
    · exfalso
      rw [List.replicate_succ, List.cons_append] at hsplit
      rcases splitSlash_cons_structure l ddSeg _ hsplit with ⟨h4, h5⟩ | ⟨y, h4, h5⟩
      · exact h3 (by rw [h4]; rfl)
      · exact h1 y (by rw [h4]; rfl)

/-! ## Lemmas: shape of normalised paths -/

lemma normSegs_true_noDD (inp : List Seg) : ddSeg ∉ normSegs true inp := by
  rw [normSegs]
  intro hm
  exact normAcc_true_noDD inp [] (List.not_mem_nil _) (List.mem_reverse.mp hm)

lemma normSegs_false_shape (inp : List Seg) :
    ∃ k G, normSegs false inp = List.replicate k ddSeg ++ G ∧ ddSeg ∉ G := by
  rcases normAcc_false_shape inp [] [] 0 rfl (List.not_mem_nil _) with ⟨G2, k2, h, hG2⟩
  refine ⟨k2, G2.reverse, ?_, fun hm => hG2 (List.mem_reverse.mp hm)⟩
  rw [normSegs, h, List.reverse_append, List.reverse_replicate]

lemma normSegs_noslash (isAbs : Bool) (l : List Char) :
    ∀ s ∈ normSegs isAbs (splitSlash l), '/' ∉ s := by
  intro s hm
  rw [normSegs, List.mem_reverse] at hm
  rcases normAcc_mem isAbs (splitSlash l) [] s hm with h | h | h
  · exact absurd h (List.not_mem_nil _)
  · exact noSlash_splitSlash l s h
  · rw [h]; decide

lemma normSegs_good (isAbs : Bool) (inp : List Seg) :
    ∀ s ∈ normSegs isAbs inp, s ≠ [] ∧ s ≠ dotSeg := by
  intro s hm
  rw [normSegs, List.mem_reverse] at hm
  exact normAcc_good isAbs inp [] (by intro u hu; exact absurd hu (List.not_mem_nil _)) s hm

lemma stripDD_slash_head (z : List Char) : stripDD ('/' :: z) = '/' :: z := rfl

lemma stripDD_dot : stripDD dotSeg = dotSeg := rfl

lemma stripDD_dotslash : stripDD ['.', '/'] = ['.', '/'] := rfl

/-- The stripped, normalised path contains no `..` segment: the non-leading
segments of a normalised path are never `..`, and the leading `..` run is
exactly what the regex removes. -/
lemma sanitized_noDD (raw : List Char) :
    ddSeg ∉ splitSlash (stripDD (normChars raw)) := by
  by_cases hraw : raw = []
  · subst hraw
    rw [show normChars [] = dotSeg from rfl, show stripDD dotSeg = dotSeg from rfl]
    decide
  · rw [normChars, if_neg hraw]
    by_cases habs : (raw.head? == some '/') = true
    · -- absolute input: the result starts with '/', the regex does not fire
      rw [habs, if_pos rfl]
      set A := normSegs true (splitSlash raw) with hA
      have hnoDD : ddSeg ∉ A := normSegs_true_noDD (splitSlash raw)
      have hnosl : ∀ s ∈ A, '/' ∉ s := normSegs_noslash true raw
      by_cases hbody : joinSlash A = []
      · rw [if_pos hbody, stripDD_slash_head, splitSlash_slash, splitSlash_nil]
        decide
      · have hAne : A ≠ [] := fun h => hbody (by rw [h]; rfl)
        have hsplit : splitSlash (joinSlash A) = A := splitSlash_joinSlash A hAne hnosl
        rw [if_neg hbody]
        by_cases htr : (raw.getLast? == some '/') = true
        · rw [htr, if_pos rfl, stripDD_slash_head, splitSlash_slash]
          intro hm
          rcases List.mem_cons.mp hm with h | h
          · exact absurd h.symm (by decide)
          · rw [splitSlash_concat_slash, hsplit] at h
            rcases List.mem_append.mp h with h2 | h2
            · exact hnoDD h2
            · rcases List.mem_singleton.mp h2 with h3
              exact absurd h3 (by decide)
        · rw [Bool.not_eq_true] at htr
          rw [htr, if_neg Bool.false_ne_true, stripDD_slash_head, splitSlash_slash]
          intro hm
          rcases List.mem_cons.mp hm with h | h
          · exact absurd h.symm (by decide)
          · rw [hsplit] at h
            exact hnoDD h
    · -- relative input: leading `..` run followed by dd-free segments
      rw [Bool.not_eq_true] at habs
      rw [habs, if_neg Bool.false_ne_true]
      rcases normSegs_false_shape (splitSlash raw) with ⟨k, G, hshape, hG⟩
      set A := normSegs false (splitSlash raw) with hA
      have hnosl : ∀ s ∈ A, '/' ∉ s := normSegs_noslash false raw
      by_cases hbody : joinSlash A = []
      · rw [if_pos hbody]
        by_cases htr : (raw.getLast? == some '/') = true
        · rw [htr, if_pos rfl, stripDD_dotslash]
          decide
        · rw [Bool.not_eq_true] at htr
          rw [htr, if_neg Bool.false_ne_true, stripDD_dot]
          decide
      · have hAne : A ≠ [] := fun h => hbody (by rw [h]; rfl)
        have hsplit : splitSlash (joinSlash A) = A := splitSlash_joinSlash A hAne hnosl
        rw [if_neg hbody]
        by_cases htr : (raw.getLast? == some '/') = true
        · rw [htr, if_pos rfl]
          refine stripDD_noDD (joinSlash A ++ ['/']) k (G ++ [[]]) ?_ ?_
          · rw [splitSlash_concat_slash, hsplit, hshape, List.append_assoc]
          · intro hm
            rcases List.mem_append.mp hm with h2 | h2
            · exact hG h2
            · exact absurd (List.mem_singleton.mp h2) (by decide)
        · rw [Bool.not_eq_true] at htr
          rw [htr, if_neg Bool.false_ne_true]
          exact stripDD_noDD (joinSlash A) k G (by rw [hsplit, hshape]) hG

/-! ## Lemmas: the root path is normal and containment holds -/

lemma joinSlash_ne_nil (R : List Seg) (hne : R ≠ []) (hgood : ∀ s ∈ R, s ≠ []) :
    joinSlash R ≠ [] := by
  rcases R with _ | ⟨s, rest⟩
  · exact absurd rfl hne
  · rcases rest with _ | ⟨t, ts⟩
    · exact hgood s (List.mem_cons_self _ _)
    · rw [joinSlash_cons s (t :: ts) (by simp)]
      rcases hs : s with _ | ⟨c, cs⟩
      · exact absurd rfl (hs ▸ hgood s (List.mem_cons_self _ _))
      · simp

lemma joinSlash_last_ne_slash (R : List Seg) (hne : R ≠ [])
    (hgood : ∀ s ∈ R, s ≠ [] ∧ '/' ∉ s) : (joinSlash R).getLast? ≠ some '/' := by
  induction R with
  | nil => exact absurd rfl hne
  | cons s rest ih =>
    rcases rest with _ | ⟨t, ts⟩
    · have hs := hgood s (List.mem_cons_self _ _)
      rw [show joinSlash [s] = s from rfl, List.getLast?_eq_getLast_of_ne_nil hs.1]
      intro h
      injection h with h2
      exact hs.2 (h2 ▸ List.getLast_mem hs.1)
    · have hrest : ∀ u ∈ t :: ts, u ≠ [] ∧ '/' ∉ u :=
        fun u hu => hgood u (List.mem_cons_of_mem _ hu)
      have hjoin : joinSlash (t :: ts) ≠ [] :=
        joinSlash_ne_nil (t :: ts) (by simp) (fun u hu => (hrest u hu).1)
      rw [joinSlash_cons s (t :: ts) (by simp),
        List.getLast?_append_of_ne_nil s (by simp)]
      rcases hj : joinSlash (t :: ts) with _ | ⟨c, cs⟩
      · exact absurd hj hjoin
      · rw [List.getLast?_cons_cons]
        rw [hj] at ih
        exact ih (by simp) hrest

lemma filter_good_all (R : List Seg) (hgood : ∀ s ∈ R, s ≠ [] ∧ s ≠ dotSeg) :
    R.filter goodSeg = R := by
  rw [List.filter_eq_self]
  intro s hs
  have := hgood s hs
  simp [goodSeg, this.1, this.2]

lemma splitSlash_rootChars (R : List Seg) (hR : goodRootSegs R) :
    splitSlash (rootChars R) = [] :: R := by
  rw [rootChars, splitSlash_slash,
    splitSlash_joinSlash R hR.1 (fun s hs => (hR.2 s hs).2.2.2)]

lemma normChars_rootChars (R : List Seg) (hR : goodRootSegs R) :
    normChars (rootChars R) = rootChars R := by
  have hne : rootChars R ≠ [] := by rw [rootChars]; simp
  have hnoDD : ddSeg ∉ ([] : Seg) :: R := by
    intro hm
    rcases List.mem_cons.mp hm with h | h
    · exact absurd h.symm (by decide)
    · exact (hR.2 ddSeg h).2.2.1 rfl
  have hhead : (rootChars R).head? = some '/' := by rw [rootChars]; rfl
  have hlast : (rootChars R).getLast? ≠ some '/' := by
    have hjoin : joinSlash R ≠ [] :=
      joinSlash_ne_nil R hR.1 (fun s hs => (hR.2 s hs).1)
    have hlast2 : (joinSlash R).getLast? ≠ some '/' :=
      joinSlash_last_ne_slash R hR.1 (fun s hs => ⟨(hR.2 s hs).1, (hR.2 s hs).2.2.2⟩)
    rw [rootChars]
    rcases hj : joinSlash R with _ | ⟨c, cs⟩
    · exact absurd hj hjoin
    · rw [List.getLast?_cons_cons, ← hj]
      exact hlast2
  rw [normChars, if_neg hne]
  have h1 : (rootChars R).head? == some '/' := by rw [hhead]; rfl
  have h2 : ((rootChars R).getLast? == some '/') = false := by
    rw [beq_eq_false_iff_ne]
    exact hlast
  rw [h1, h2, if_pos rfl]
  have hsegs : normSegs true (splitSlash (rootChars R)) = R := by
    rw [splitSlash_rootChars R hR, normSegs,
      normAcc_noDD_filter true (([] : Seg) :: R) [] hnoDD]
    rw [List.append_nil, List.reverse_reverse, List.filter_cons]
    have : goodSeg ([] : Seg) = false := by decide
    rw [this]
    simp only [Bool.false_eq_true, if_false]
    exact filter_good_all R (fun s hs => ⟨(hR.2 s hs).1, (hR.2 s hs).2.1⟩)
  rw [hsegs]
  have hbody : joinSlash R ≠ [] :=
    joinSlash_ne_nil R hR.1 (fun s hs => (hR.2 s hs).1)
  rw [if_neg hbody, if_neg Bool.false_ne_true]
  rfl

lemma isPrefixOf_app (a b : List Char) : a.isPrefixOf (a ++ b) = true := by
  induction a with
  | nil => simp [List.isPrefixOf]
  | cons c r ih => simp [List.isPrefixOf, ih]

lemma joinSlash_append2 (A B : List Seg) (hA : A ≠ []) (hB : B ≠ []) :
    joinSlash (A ++ B) = joinSlash A ++ '/' :: joinSlash B := by
  induction A with
  | nil => exact absurd rfl hA
  | cons s rest ih =>
    rcases rest with _ | ⟨t, ts⟩
    · rcases B with _ | ⟨b, bs⟩
      · exact absurd rfl hB
      · rw [show ([s] : List Seg) ++ b :: bs = s :: b :: bs from rfl,
          joinSlash_cons s (b :: bs) (by simp), show joinSlash [s] = s from rfl]
    · rw [show (s :: t :: ts) ++ B = s :: ((t :: ts) ++ B) from rfl,
        joinSlash_cons s ((t :: ts) ++ B) (by simp),
        joinSlash_cons s (t :: ts) (by simp), ih (by simp)]
      simp

/-- C2 (amended): the canonicalisation step `sanitizePath` of
src/src/lib/file-system.ts keeps every input — `..` segments, backslashes,
absolute-looking prefixes included — inside the storage-root subtree: for a
normal-form storage root and an arbitrary raw input string, the resolved
absolute path is the root itself or extends it past a separator.  (As stated
over every front end the claim fails: the Express `app.put` handler of
src/index.js joins the raw path with no sanitisation and escapes the root on
`..` segments — see `c2_counterexample_express_join_escapes`.) -/
theorem c2_sanitize_inside_root (R : List Seg) (hR : goodRootSegs R) (raw : String) :
    insideRoot (rootChars R) (sanitizeChars (rootChars R) raw.data) = true := by
  have hrootne : rootChars R ≠ [] := by rw [rootChars]; simp
  rw [sanitizeChars]
  set st := stripDD (normChars raw.data) with hst
  have hS : ddSeg ∉ splitSlash st := by rw [hst]; exact sanitized_noDD raw.data
  by_cases hstnil : st = []
  · rw [posixJoin2, if_neg (by intro h; exact hrootne h.1), if_neg hrootne, if_pos hstnil,
      normChars_rootChars R hR]
    simp [insideRoot]
  · rw [posixJoin2, if_neg (by intro h; exact hrootne h.1), if_neg hrootne, if_neg hstnil]
    have happne : rootChars R ++ '/' :: st ≠ [] := by simp [rootChars]
    rw [normChars, if_neg happne]
    have hhead : ((rootChars R ++ '/' :: st).head? == some '/') = true := by
      rw [rootChars]; rfl
    rw [hhead, if_pos rfl]
    have hsplit2 : splitSlash (rootChars R ++ '/' :: st) = ([] :: R) ++ splitSlash st := by
      rw [splitSlash_append, splitSlash_rootChars R hR]
    have hnoDDall : ddSeg ∉ (([] : Seg) :: R) ++ splitSlash st := by
      intro hm
      rcases List.mem_append.mp hm with h | h
      · rcases List.mem_cons.mp h with h2 | h2
        · exact absurd h2.symm (by decide)
        · exact (hR.2 ddSeg h2).2.2.1 rfl
      · exact hS h
    have hsegs : normSegs true (splitSlash (rootChars R ++ '/' :: st)) =
        R ++ (splitSlash st).filter goodSeg := by
      rw [hsplit2, normSegs, normAcc_noDD_filter true _ [] hnoDDall, List.append_nil,
        List.reverse_reverse, List.filter_append, List.filter_cons]
      have hgempty : goodSeg ([] : Seg) = false := by decide
      rw [hgempty]
      simp only [Bool.false_eq_true, if_false]
      rw [filter_good_all R (fun s hs => ⟨(hR.2 s hs).1, (hR.2 s hs).2.1⟩)]
    rw [hsegs]
    set F := (splitSlash st).filter goodSeg with hF
    by_cases hFnil : F = []
    · rw [hFnil, List.append_nil]
      have hbody : joinSlash R ≠ [] := joinSlash_ne_nil R hR.1 (fun s hs => (hR.2 s hs).1)
      rw [if_neg hbody]
      have hpfxself : (rootChars R ++ ['/']).isPrefixOf (rootChars R ++ ['/']) = true := by
        have h2 := isPrefixOf_app (rootChars R ++ ['/']) []
        rwa [List.append_nil] at h2
      by_cases htr : ((rootChars R ++ '/' :: st).getLast? == some '/') = true
      · rw [htr, if_pos rfl]
        have heq : ('/' :: (joinSlash R ++ ['/'])) = rootChars R ++ ['/'] := by
          rw [rootChars]; rfl
        rw [heq, insideRoot, hpfxself, Bool.or_true]
      · rw [Bool.not_eq_true] at htr
        rw [htr, if_neg Bool.false_ne_true]
        have heq : ('/' :: joinSlash R) = rootChars R := rfl
        rw [heq, insideRoot]
        simp
    · have hRF : R ++ F ≠ [] := by simp [hR.1]
      have hgoodRF : ∀ s ∈ R ++ F, s ≠ [] := by
        intro s hs
        rcases List.mem_append.mp hs with h | h
        · exact (hR.2 s h).1
        · have h3 := List.of_mem_filter h
          simp only [goodSeg, Bool.not_eq_true', Bool.or_eq_false_iff, beq_eq_false_iff_ne,
            ne_eq] at h3
          exact h3.1
      have hbody : joinSlash (R ++ F) ≠ [] := joinSlash_ne_nil _ hRF hgoodRF
      rw [if_neg hbody, joinSlash_append2 R F hR.1 hFnil]
      by_cases htr : ((rootChars R ++ '/' :: st).getLast? == some '/') = true
      · rw [htr, if_pos rfl]
        rw [insideRoot]
        have heq : ('/' :: ((joinSlash R ++ '/' :: joinSlash F) ++ ['/'])) =
            (rootChars R ++ ['/']) ++ (joinSlash F ++ ['/']) := by
          simp [rootChars]
        rw [heq, isPrefixOf_app]
        simp
      · rw [Bool.not_eq_true] at htr
        rw [htr, if_neg Bool.false_ne_true]
        rw [insideRoot]
        have heq : ('/' :: (joinSlash R ++ '/' :: joinSlash F)) =
            (rootChars R ++ ['/']) ++ joinSlash F := by
          simp [rootChars]
        rw [heq, isPrefixOf_app]
        simp

/-! ## Lemmas: filesystem operations -/

lemma lookupKind_eq_none (fs : Fsys) (p : FPath) :
    lookupKind fs p = none ↔ ∀ e ∈ fs, e.1 ≠ p := by
  rw [lookupKind, Option.map_eq_none', List.find?_eq_none]
  constructor
  · intro h e he heq
    have h2 := h e he
    simp [heq] at h2
  · intro h e he
    simp [h e he]

lemma lookupKind_cons (q : FPath) (k : FKind) (fs : Fsys) (p : FPath) :
    lookupKind ((q, k) :: fs) p = if q = p then some k else lookupKind fs p := by
  by_cases h : q = p
  · subst h
    rw [lookupKind, List.find?_cons_of_pos _ (by simp), if_pos rfl]
    rfl
  · rw [lookupKind, List.find?_cons_of_neg _ (by simp [h]), if_neg h, lookupKind]

lemma lookupKind_removeEntry_self (fs : Fsys) (p : FPath) :
    lookupKind (removeEntry fs p) p = none := by
  rw [lookupKind_eq_none]
  intro e he
  have h := List.mem_filter.mp he
  simpa using h.2

lemma fpath_isPrefixOf_refl (p : FPath) : p.isPrefixOf p = true := by
  induction p with
  | nil => rfl
  | cons s rest ih => simp [List.isPrefixOf, ih]

lemma lookupKind_removeTree_self (fs : Fsys) (p : FPath) :
    lookupKind (removeTree fs p) p = none := by
  rw [lookupKind_eq_none]
  intro e he
  have h := List.mem_filter.mp he
  intro heq
  rw [Bool.not_eq_eq_eq_not, Bool.not_true] at h
  have h2 := h.2
  rw [heq, fpath_isPrefixOf_refl] at h2
  cases h2

lemma lookupKind_removeEntry_ne (fs : Fsys) (p q : FPath) (h : q ≠ p) :
    lookupKind (removeEntry fs p) q = lookupKind fs q := by
  induction fs with
  | nil => rfl
  | cons e fs ih =>
    rcases e with ⟨e1, e2⟩
    rw [removeEntry, List.filter_cons]
    rw [removeEntry] at ih
    by_cases he : e1 = p
    · rw [if_neg (by simp [he])]
      rw [ih, lookupKind_cons, if_neg ?_]
      intro hh
      exact h (hh ▸ he)
    · rw [if_pos (by simp [he])]
      rw [lookupKind_cons, lookupKind_cons]
      by_cases h2 : e1 = q
      · rw [if_pos h2, if_pos h2]
      · rw [if_neg h2, if_neg h2]
        exact ih

lemma mem_cleanupRev (rev : FPath) : ∀ fs, ∀ e ∈ cleanupRev fs rev, e ∈ fs := by
  induction rev with
  | nil => intro fs e he; exact he
  | cons s rest ih =>
    intro fs e he
    rw [cleanupRev] at he
    split at he
    · split at he
      · have h2 := ih _ e he
        exact (List.mem_filter.mp h2).1
      · exact he
    · exact he

lemma lookupKind_cleanupRev_nil (rev : FPath) :
    ∀ fs, lookupKind (cleanupRev fs rev) [] = lookupKind fs [] := by
  induction rev with
  | nil => intro fs; rfl
  | cons s rest ih =>
    intro fs
    rw [cleanupRev]
    split
    · split
      · rw [ih]
        exact lookupKind_removeEntry_ne fs ((s :: rest).reverse) []
          (by simp)
      · rfl
    · rfl

lemma lookupKind_deleteItemFs_self (fs : Fsys) (p : FPath) :
    lookupKind fs p = none → deleteItemFs fs p = fs := by
  intro h
  rw [deleteItemFs, h]

lemma lookupKind_sub_none (fs1 fs2 : Fsys) (p : FPath)
    (hsub : ∀ e ∈ fs1, e ∈ fs2) (h : lookupKind fs2 p = none) :
    lookupKind fs1 p = none := by
  rw [lookupKind_eq_none] at h ⊢
  exact fun e he => h e (hsub e he)

lemma lookupKind_deleteItemFs_gone (fs : Fsys) (p : FPath) :
    lookupKind (deleteItemFs fs p) p = none := by
  rw [deleteItemFs]
  rcases hk : lookupKind fs p with _ | k
  · exact hk
  · rcases k with _ | _
    · -- file
      rw [cleanupEmptyParents]
      exact lookupKind_sub_none _ _ p (mem_cleanupRev _ _) (lookupKind_removeEntry_self fs p)
    · -- dir
      rw [cleanupEmptyParents]
      exact lookupKind_sub_none _ _ p (mem_cleanupRev _ _) (lookupKind_removeTree_self fs p)

lemma mkdirRev_dirs (rev : FPath) : ∀ fs fs1, mkdirRev fs rev = some fs1 →
    ∀ rv, rv ≠ [] → rv <:+ rev → lookupKind fs1 rv.reverse = some FKind.dir := by
  induction rev with
  | nil =>
    intro fs fs1 h rv hne hsuf
    exact absurd (List.eq_nil_of_suffix_nil hsuf) hne
  | cons s rest ih =>
    intro fs fs1 h rv hne hsuf
    rw [mkdirRev] at h
    split at h
    · cases h
    · rename_i fsA hmk
      simp only [] at h
      rcases List.suffix_cons_iff.mp hsuf with hfull | htail
      · subst hfull
        split at h
        · rename_i hlk
          injection h with h2
          subst h2
          exact hlk
        · cases h
        · rename_i hlk
          injection h with h2
          subst h2
          rw [lookupKind_cons, if_pos rfl]
      · have hres := ih fs fsA hmk rv hne htail
        split at h
        · rename_i hlk
          injection h with h2
          subst h2
          exact hres
        · cases h
        · rename_i hlk
          injection h with h2
          subst h2
          rw [lookupKind_cons, if_neg ?_]
          · exact hres
          · intro heq
            have hlen : rv.length ≤ rest.length := List.IsSuffix.length_le htail
            have hc := congrArg List.length heq
            simp at hc
            omega

lemma prefix_dropLast_of_proper (q p : FPath) (hpre : q <+: p) (hne : q ≠ p) :
    q <+: p.dropLast := by
  rcases hpre with ⟨t, ht⟩
  rcases t with _ | ⟨a, ts⟩
  · rw [List.append_nil] at ht
    exact absurd ht hne
  · rw [← ht, List.dropLast_append_of_ne_nil _ (by simp)]
    exact ⟨(a :: ts).dropLast, rfl⟩

lemma writeFileFs_spec (fs : Fsys) (p : FPath) (fs2 : Fsys)
    (h : writeFileFs fs p = some fs2) :
    lookupKind fs2 p = some FKind.file ∧
    ∀ q, q ≠ [] → q <+: p → q ≠ p → lookupKind fs2 q = some FKind.dir := by
  rw [writeFileFs] at h
  rcases hmk : mkdirAll fs p.dropLast with _ | fs1
  · rw [hmk] at h; cases h
  · rw [hmk] at h
    simp only [] at h
    by_cases hdir : lookupKind fs1 p = some FKind.dir
    · rw [if_pos hdir] at h; cases h
    · rw [if_neg hdir] at h
      injection h with h2
      subst h2
      constructor
      · rw [setFile, lookupKind_cons, if_pos rfl]
      · intro q hq hpre hne
        rw [setFile, lookupKind_cons, if_neg (fun hh => hne hh.symm),
          lookupKind_removeEntry_ne fs1 p q hne]
        have hq2 : q <+: p.dropLast := prefix_dropLast_of_proper q p hpre hne
        have hsuf : q.reverse <:+ p.dropLast.reverse := List.reverse_suffix.mpr hq2
        have hres := mkdirRev_dirs p.dropLast.reverse fs fs1 hmk q.reverse
          (by simpa using hq) hsuf
        rwa [List.reverse_reverse] at hres

lemma storeFind_storeDelete (store : List TokenRec) (tok : List Char) :
    storeFind (storeDelete store tok) tok = none := by
  rw [storeFind, storeDelete, List.find?_eq_none]
  intro r hr
  have h := List.mem_filter.mp hr
  simpa using h.2

lemma pfx_shape_core (n : List Char) :
    (if n = dotSeg ∨ n = ['/'] then [] else
      if ¬n = [] ∧ extnameChars n = [] ∧ ¬strEndsSlash n = true then n ++ ['/'] else n) = [] ∨
    strEndsSlash (if n = dotSeg ∨ n = ['/'] then [] else
      if ¬n = [] ∧ extnameChars n = [] ∧ ¬strEndsSlash n = true then n ++ ['/'] else n) = true ∨
    extnameChars (if n = dotSeg ∨ n = ['/'] then [] else
      if ¬n = [] ∧ extnameChars n = [] ∧ ¬strEndsSlash n = true then n ++ ['/'] else n) ≠ [] := by
  split_ifs with h1 h2
  · exact Or.inl rfl
  · refine Or.inr (Or.inl ?_)
    rw [strEndsSlash]
    simp [List.getLast?_concat]
  · tauto

/-! ## Claim theorems -/

/-- C1: the claim says authorization runs before any storage side effect on
every read/write/delete.  In src/index.js the `app.put` and `app.delete`
routes are registered before the token middleware, so Express dispatches PUT
and DELETE to handlers that never consult the token: the app's behaviour on
those methods is literally independent of the token check, and a PUT with a
token the middleware would reject (`tokenOk ≡ false`) still creates the file.
(The Go variant's `authMiddleware` wraps the mux, and the Next.js routes call
`validateToken` first; the Express front end is the slip.) -/
theorem c1_express_put_bypasses_auth :
    (∀ tokenOk : List Char → List Char → Bool, ∀ fs tok relPath,
      expressApp tokenOk fs XMethod.putM tok relPath = expressPut fs relPath) ∧
    (∀ tokenOk : List Char → List Char → Bool, ∀ fs tok relPath,
      expressApp tokenOk fs XMethod.deleteM tok relPath = expressDelete fs relPath) ∧
    expressApp (fun _ _ => false) [([], FKind.dir)] XMethod.putM "badtok".data "a.txt".data =
      (XResult.okPut, [(["a.txt".data], FKind.file), ([], FKind.dir)]) ∧
    expressApp (fun _ _ => false) [([], FKind.dir)] XMethod.getM "badtok".data "a.txt".data =
      (XResult.forbiddenX, [([], FKind.dir)]) := by
  refine ⟨fun _ _ _ _ => rfl, fun _ _ _ _ => rfl, by decide, by decide⟩

/-- C2 counterexample: read over every front end, the claim fails — the
Express `app.put` destination `path.join(STORAGE, relPath)` (the only path
processing that variant has) resolves `../pwn` to a location outside the
storage root. -/
theorem c2_counterexample_express_join_escapes :
    expressPutDest "/srv/storage".data "../pwn".data = "/srv/pwn".data ∧
    insideRoot "/srv/storage".data (expressPutDest "/srv/storage".data "../pwn".data) = false := by
  exact ⟨by decide, by decide⟩

/-- C3: a token whose scope is the empty prefix authorizes every canonical
request path, including the empty (root) path: the scope match of
`validateToken` returns true for all paths. -/
theorem c3_root_scope_matches_all : ∀ p : List Char, matchesScope [] p = true := by
  intro p
  rw [matchesScope, if_pos (Or.inr rfl), if_pos rfl]

/-- C4: for a directory grant (prefix ending in `/`), the scope match accepts
a canonical path `p` iff `p` starts with the prefix or `p ++ "/"` equals the
prefix; in particular `docs/` authorizes `docs/a.txt` and `docs` but rejects
`docs2/a.txt` and the empty path. -/
theorem c4_dir_scope_iff :
    (∀ pfx p : List Char, strEndsSlash pfx = true → pfx ≠ [] →
      (matchesScope pfx p = true ↔ (pfx.isPrefixOf p = true ∨ p ++ ['/'] = pfx))) ∧
    matchesScope "docs/".data "docs/a.txt".data = true ∧
    matchesScope "docs/".data "docs".data = true ∧
    matchesScope "docs/".data "docs2/a.txt".data = false ∧
    matchesScope "docs/".data [] = false := by
  refine ⟨?_, by decide, by decide, by decide, by decide⟩
  intro pfx p hend hne
  rw [matchesScope, if_pos (Or.inl hend), if_neg hne]
  simp

/-- Witness for C4 at a concrete prefix and path. -/
theorem c4_dir_scope_iff_witness :
    matchesScope "docs/".data "docs/sub/f.txt".data = true ↔
      ("docs/".data.isPrefixOf "docs/sub/f.txt".data = true ∨
        "docs/sub/f.txt".data ++ ['/'] = "docs/".data) :=
  c4_dir_scope_iff.1 "docs/".data "docs/sub/f.txt".data (by decide) (by decide)

/-- C5: for a single-file grant (non-empty prefix not ending in `/`), the
scope match accepts exactly the path equal to the prefix; `report.pdf`
authorizes only `report.pdf`.  At issuance (`generateToken`), an extension-less
prefix gets a trailing slash appended, so every issued file-grant prefix is
empty, slash-terminated, or carries an extension. -/
theorem c5_file_scope_exact :
    (∀ pfx p : List Char, strEndsSlash pfx = false → pfx ≠ [] →
      (matchesScope pfx p = true ↔ p = pfx)) ∧
    matchesScope "report.pdf".data "report.pdf".data = true ∧
    (∀ p : List Char, p ≠ "report.pdf".data → matchesScope "report.pdf".data p = false) ∧
    (∀ raw : List Char, processPfx raw = [] ∨ strEndsSlash (processPfx raw) = true ∨
      extnameChars (processPfx raw) ≠ []) := by
  refine ⟨?_, by decide, ?_, ?_⟩
  · intro pfx p hend hne
    have hcond : ¬(strEndsSlash pfx = true ∨ pfx = []) := by
      intro hor
      rcases hor with h | h
      · rw [hend] at h; exact absurd h (by simp)
      · exact hne h
    rw [matchesScope, if_neg hcond]
    simp
  · intro p hp
    have hcond : ¬(strEndsSlash "report.pdf".data = true ∨ "report.pdf".data = []) := by
      decide
    rw [matchesScope, if_neg hcond, beq_eq_false_iff_ne]
    exact hp
  · intro raw
    rw [processPfx]
    exact pfx_shape_core _

/-- Witness for C5 at a concrete prefix and path. -/
theorem c5_file_scope_exact_witness :
    matchesScope "report.pdf".data "report2.pdf".data = true ↔
      "report2.pdf".data = "report.pdf".data :=
  c5_file_scope_exact.1 "report.pdf".data "report2.pdf".data (by decide) (by decide)

/-- C6: `validateToken` on an expired token returns the same denial (`none`)
as on a never-issued token id, deletes the expired record as a side effect of
the failed lookup (so it is absent afterwards), and a token whose expiry is
the `Number.MAX_SAFE_INTEGER` sentinel is never treated as expired. -/
theorem c6_expired_like_unknown :
    (∀ store tok now p td, storeFind store tok = some td →
      expiredCheck td.expiry now = true →
      validateToken store tok now p = (none, storeDelete store tok) ∧
      storeFind (validateToken store tok now p).2 tok = none) ∧
    (∀ store tok now p, storeFind store tok = none →
      validateToken store tok now p = (none, store)) ∧
    (∀ now2, expiredCheck maxSafeInteger now2 = false) := by
  refine ⟨?_, ?_, ?_⟩
  · intro store tok now p td hfind hexp
    have hval : validateToken store tok now p = (none, storeDelete store tok) := by
      rw [validateToken, hfind]
      simp only [hexp, if_true]
    refine ⟨hval, ?_⟩
    rw [hval]
    exact storeFind_storeDelete store tok
  · intro store tok now p h
    rw [validateToken, h]
  · intro now2
    rw [expiredCheck]
    simp

/-- Witness for C6: a concrete expired token is denied and evicted. -/
theorem c6_expired_like_unknown_witness :
    validateToken [⟨"t1".data, "docs/".data, 100⟩] "t1".data 200 "docs/a".data =
      (none, storeDelete [⟨"t1".data, "docs/".data, 100⟩] "t1".data) ∧
    storeFind (validateToken [⟨"t1".data, "docs/".data, 100⟩] "t1".data 200 "docs/a".data).2
      "t1".data = none :=
  c6_expired_like_unknown.1 [⟨"t1".data, "docs/".data, 100⟩] "t1".data 200 "docs/a".data
    ⟨"t1".data, "docs/".data, 100⟩ (by decide) (by decide)

/-- C7: the claim's cascade description holds of `cleanupEmptyParents` — the
walk never touches the root entry, and it removes an empty chain while
stopping at a still-populated ancestor — but its final clause ("the storage
root is never removed by delete, for any input path") fails: the `DELETE`
route only guards the literal path `'.'`, while `sanitizePath` resolves the
input `..` to the storage root itself, which `deleteItem` then removes
recursively (a root-scope token authorizes the request, since `..` passes the
prefix check).  The concrete run below sends `..` against a populated store:
the whole tree, root entry included, is removed. -/
theorem c7_delete_dotdot_removes_root :
    (∀ fs q, lookupKind (cleanupEmptyParents fs q) [] = lookupKind fs []) ∧
    deleteRoute [([], FKind.dir), (["a".data], FKind.dir),
      (["a".data, "b".data], FKind.dir), (["a".data, "b".data, "f".data], FKind.file)]
      "a/b/f".data =
      (DelResult.okDel, [([], FKind.dir)]) ∧
    (validateToken [⟨"t".data, [], maxSafeInteger⟩] "t".data 0 "..".data).1 =
      some ⟨"t".data, [], maxSafeInteger⟩ ∧
    lookupKind [([], FKind.dir), (["a".data], FKind.dir),
      (["a".data, "f.txt".data], FKind.file)] [] = some FKind.dir ∧
    deleteRoute [([], FKind.dir), (["a".data], FKind.dir),
      (["a".data, "f.txt".data], FKind.file)] "..".data = (DelResult.okDel, []) ∧
    lookupKind ((deleteRoute [([], FKind.dir), (["a".data], FKind.dir),
      (["a".data, "f.txt".data], FKind.file)] "..".data).2) [] = none := by
  refine ⟨?_, by decide, by decide, by decide, by decide, by decide⟩
  intro fs q
  rw [cleanupEmptyParents]
  exact lookupKind_cleanupRev_nil q.reverse fs

/-- C8: deleting a missing path — in particular a path already deleted by a
previous delete — reports `NotFound` with the state unchanged, never success
and never an error: the `DELETE` route stats first, and `deleteItem` swallows
ENOENT. -/
theorem c8_delete_missing_notFound :
    (∀ fs p, getFileStatsFs fs p = none → deleteRoute fs p = (DelResult.notFound, fs)) ∧
    (∀ fs p fs2, deleteRoute fs p = (DelResult.okDel, fs2) →
      deleteRoute fs2 p = (DelResult.notFound, fs2)) ∧
    (∀ fs p, lookupKind fs p = none → deleteItemFs fs p = fs) := by
  refine ⟨?_, ?_, fun fs p h => lookupKind_deleteItemFs_self fs p h⟩
  · intro fs p h
    rw [deleteRoute, h]
  · intro fs p fs2 h
    rw [deleteRoute] at h
    rcases hstat : getFileStatsFs fs p with _ | k
    · rw [hstat] at h
      rw [Prod.mk.injEq] at h
      exact absurd h.1 (by decide)
    · rw [hstat] at h
      by_cases hdot : p = dotSeg
      · rw [if_pos hdot, Prod.mk.injEq] at h
        exact absurd h.1 (by decide)
      · rw [if_neg hdot, Prod.mk.injEq] at h
        have hnone : getFileStatsFs fs2 p = none := by
          rw [← h.2, getFileStatsFs]
          exact lookupKind_deleteItemFs_gone fs (sanitizeRelSegs p)
        rw [deleteRoute, hnone]

/-- Witness for C8: deleting a never-created path on a root-only store. -/
theorem c8_delete_missing_notFound_witness :
    deleteRoute [([], FKind.dir)] "nope.txt".data =
      (DelResult.notFound, [([], FKind.dir)]) :=
  c8_delete_missing_notFound.1 [([], FKind.dir)] "nope.txt".data (by decide)

/-- C9 counterexample: the claim maps the empty (root) canonical path to an
`InvalidTarget` error, but the route checks the existing-directory condition
first; with the storage root present (the normal state — it is auto-created
at module load), writing to `'.'` yields `IsDirectory`, not `InvalidTarget`. -/
theorem c9_counterexample_root_write_isdirectory :
    writeRoute [([], FKind.dir)] ".".data =
      (WriteResult.isDirectoryErr, [([], FKind.dir)]) ∧
    WriteResult.isDirectoryErr ≠ WriteResult.invalidTargetErr := by
  exact ⟨by decide, by decide⟩

/-- C9 (amended): write creates all missing parent directories and then the
file; an existing-directory target is refused as `IsDirectory`; the empty
(root) or slash-terminated path is refused — as `IsDirectory` whenever the
root/target directory exists (the directory check runs first), and as
`InvalidTarget` otherwise; the root path never writes a file. -/
theorem c9_write_semantics :
    (∀ fs p, getFileStatsFs fs p = some FKind.dir →
      writeRoute fs p = (WriteResult.isDirectoryErr, fs)) ∧
    (∀ fs p, ¬getFileStatsFs fs p = some FKind.dir →
      (p = dotSeg ∨ strEndsSlash p = true) →
      writeRoute fs p = (WriteResult.invalidTargetErr, fs)) ∧
    (∀ fs, (writeRoute fs ".".data).1 ≠ WriteResult.okWrite) ∧
    (∀ fs p fs2, writeRoute fs p = (WriteResult.okWrite, fs2) →
      lookupKind fs2 (sanitizeRelSegs p) = some FKind.file ∧
      ∀ q, q ≠ [] → q <+: sanitizeRelSegs p → q ≠ sanitizeRelSegs p →
        lookupKind fs2 q = some FKind.dir) := by
  refine ⟨?_, ?_, ?_, ?_⟩
  · intro fs p h
    rw [writeRoute, if_pos h]
  · intro fs p h1 h2
    rw [writeRoute, if_neg h1, if_pos h2]
  · intro fs
    rw [writeRoute]
    split_ifs with h1 h2
    · simp
    · simp
    · exact absurd (Or.inl rfl) h2
  · intro fs p fs2 h
    rw [writeRoute] at h
    split_ifs at h with h1 h2
    · rw [Prod.mk.injEq] at h
      exact absurd h.1 (by decide)
    · rw [Prod.mk.injEq] at h
      exact absurd h.1 (by decide)
    · rcases hw : writeFileFs fs (sanitizeRelSegs p) with _ | fs3
      · rw [hw, Prod.mk.injEq] at h
        exact absurd h.1 (by decide)
      · rw [hw, Prod.mk.injEq] at h
        rw [← h.2]
        exact writeFileFs_spec fs (sanitizeRelSegs p) fs3 hw

/-- Witness for C9: writing `a/b/new.txt` into a root-only store creates both
directories and the file. -/
theorem c9_write_semantics_witness :
    lookupKind [(["a".data, "b".data, "new.txt".data], FKind.file),
      (["a".data, "b".data], FKind.dir), (["a".data], FKind.dir), ([], FKind.dir)]
      (sanitizeRelSegs "a/b/new.txt".data) = some FKind.file :=
  (c9_write_semantics.2.2.2 [([], FKind.dir)] "a/b/new.txt".data
    [(["a".data, "b".data, "new.txt".data], FKind.file),
      (["a".data, "b".data], FKind.dir), (["a".data], FKind.dir), ([], FKind.dir)]
    (by decide)).1

/-- C10: in token issuance, a duration of exactly 0 ms produces the
never-expires sentinel (accepted by the validation expiry check at any later
time), an omitted duration produces expiry 24 hours after issuance, and any
other duration `d` produces `now + d`. -/
theorem c10_expiry_rules :
    (∀ now, calculatedExpiry (some 0) now = maxSafeInteger) ∧
    (∀ now, calculatedExpiry none now = now + 24 * 60 * 60 * 1000) ∧
    (∀ d now, d ≠ 0 → calculatedExpiry (some d) now = now + d) ∧
    (∀ now2, expiredCheck maxSafeInteger now2 = false) := by
  refine ⟨fun now => rfl, fun now => rfl, ?_, ?_⟩
  · intro d now hd
    rw [calculatedExpiry]
    simp only [if_neg hd]
  · intro now2
    rw [expiredCheck]
    simp

/-- Witness for C10: a concrete nonzero duration. -/
theorem c10_expiry_rules_witness :
    calculatedExpiry (some 5000) 1000 = 1000 + 5000 :=
  c10_expiry_rules.2.2.1 5000 1000 (by decide)

/-- Witness for C2: a concrete root and a concrete traversal attempt. -/
theorem c2_sanitize_inside_root_witness :
    insideRoot (rootChars ["uploads".data])
      (sanitizeChars (rootChars ["uploads".data]) "../../etc/passwd".data) = true :=
  c2_sanitize_inside_root ["uploads".data]
    (by unfold goodRootSegs; exact ⟨by simp, by decide⟩) "../../etc/passwd"
